import Mathlib

/-!
Shallow embedding of the recommendation subsystem of the hotel-qr-menu
repository (src/core/recommendation_engine.py, src/core/models.py), together
with proofs of the frozen claims about it.

The embedding models one tenant (one `hotel`): every query issued by
`SimpleRecommendationEngine` is filtered by `hotel=self.hotel`, so the pair
store, event log and order store of a single tenant form a closed system.
Decimal/float quantities are modelled as exact rationals.  A Python call that
raises (the `TypeError` from comparing a `None` menu_item_id, or a failing
insert) is modelled as `none`.
-/

namespace HotelQR

/-- Order.OrderStatus (src/core/models.py). -/
inductive OrderStatus where
  | PENDING | ACCEPTED | PREPARING | READY | DELIVERED | COMPLETED | CANCELLED
deriving DecidableEq

/-- One OrderItem row (src/core/models.py, class OrderItem): `menu_item` is a
nullable foreign key (`on_delete=SET_NULL`), `quantity` a positive integer and
`price_at_order` a decimal. -/
structure OrderLine where
  menu_item_id : Option Nat
  quantity : Nat
  price_at_order : ℚ
deriving DecidableEq

/-- An Order row restricted to the fields the engine reads: its id, its status
and its `items` lines. -/
structure OrderRec where
  oid : Nat
  status : OrderStatus
  lines : List OrderLine
deriving DecidableEq

/-- Modelled from the spec: the ItemPairFrequency model class is imported by
src/core/recommendation_engine.py but its declaration is not under src/
(src/core/models.py ends with OrderItem).  Fields follow spec §3: item_a,
item_b, times_together, confidence, times_recommended, times_converted,
revenue_generated; the tenant reference is implicit (single-tenant model). -/
structure Pair where
  item_a : Nat
  item_b : Nat
  times_together : Nat
  confidence : ℚ
  times_recommended : Nat
  times_converted : Nat
  revenue_generated : ℚ
deriving DecidableEq

/-- RecommendationEvent.EventType (spec §3). -/
inductive EventType where
  | IMPRESSION | CONVERSION
deriving DecidableEq

/-- Modelled from the spec: the RecommendationEvent model class is imported by
src/core/recommendation_engine.py but not declared under src/.  Per spec §3 the
source item and the order reference are optional while `recommended_item` is a
required reference, and revenue defaults to 0 for impressions. -/
structure EventRec where
  source_item : Option Nat
  recommended_item : Nat
  event_type : EventType
  order : Option Nat
  revenue : ℚ
deriving DecidableEq

/-- The tenant-scoped durable state the engine reads and writes: the pair
store, the append-only event log, and the order store it counts over. -/
structure EngineState where
  pairs : List Pair
  events : List EventRec
  orders : List OrderRec
deriving DecidableEq

def EngineState.empty : EngineState := ⟨[], [], []⟩

/-! ### The engine's queries, translated from src/core/recommendation_engine.py -/

/-- `order.items.values_list("menu_item_id", flat=True)`: the raw per-line id
list, nulls included, duplicates included. -/
def orderItemIds (o : OrderRec) : List (Option Nat) :=
  o.lines.map (fun l => l.menu_item_id)

/-- `itertools.combinations(xs, 2)` in enumeration order. -/
def combinations2 : List α → List (α × α)
  | [] => []
  | x :: xs => xs.map (fun y => (x, y)) ++ combinations2 xs

/-- The canonicalisation `if item_a_id > item_b_id: swap` on two already
non-null ids. -/
def canonN (k : Nat × Nat) : Nat × Nat :=
  if k.1 > k.2 then (k.2, k.1) else k

/-- Canonicalising one enumerated pair of raw ids.  Python's `>` on `None`
raises `TypeError`, modelled as `none`. -/
def canonKey : Option Nat × Option Nat → Option (Nat × Nat)
  | (some a, some b) => some (canonN (a, b))
  | _ => none

/-- Canonicalising every enumerated pair, stopping at the first `TypeError`.
(The Python loop interleaves canonicalisation with the upserts, so a raise can
leave earlier upserts behind; this model only records that the call as a whole
raises, which is all the claims need.) -/
def canonKeys : List (Option Nat × Option Nat) → Option (List (Nat × Nat))
  | [] => some []
  | p :: ps =>
    match canonKey p, canonKeys ps with
    | some k, some ks => some (k :: ks)
    | _, _ => none

/-- Modelled from the spec: field defaults of a freshly created
ItemPairFrequency row.  `get_or_create` passes no extra defaults and the
create branch performs no increment, while spec §4.1 fixes the created row at
`times_together=1`; the statistics fields start at zero (§3). -/
def newPair (a b : Nat) : Pair :=
  { item_a := a, item_b := b, times_together := 1, confidence := 0,
    times_recommended := 0, times_converted := 0, revenue_generated := 0 }

/-- `ItemPairFrequency.objects.get_or_create(...)` followed by the
`times_together` increment on the not-created branch: bump the first row with
the given key, or append a fresh row. -/
def upsertPair (ps : List Pair) (k : Nat × Nat) : List Pair :=
  match ps with
  | [] => [newPair k.1 k.2]
  | p :: rest =>
    if p.item_a = k.1 ∧ p.item_b = k.2 then
      { p with times_together := p.times_together + 1 } :: rest
    else
      p :: upsertPair rest k

/-- The upsert loop of `update_pairs_from_order` over the enumerated
canonical keys. -/
def upsertAll (ps : List Pair) (ks : List (Nat × Nat)) : List Pair :=
  ks.foldl upsertPair ps

/-- Whether an order has a line for the given menu item. -/
def containsItem (o : OrderRec) (a : Nat) : Bool :=
  o.lines.any (fun l => l.menu_item_id == some a)

/-- The count in `_update_confidence_scores`: distinct completed orders of the
tenant having an OrderItem line for the given item.  Orders are stored as rows
with distinct ids, so the distinct-order count is a filtered length. -/
def itemOrderCount (orders : List OrderRec) (a : Nat) : Nat :=
  (orders.filter (fun o =>
    decide (o.status = OrderStatus.COMPLETED) && containsItem o a)).length

/-- `_update_confidence_scores`: for every pair of the tenant, recompute
`confidence = times_together / item_a's completed-order count`, skipping the
division when that count is zero.  (The only-persist-if-changed test in the
source does not alter the resulting state.) -/
def updateConfidence (orders : List OrderRec) (ps : List Pair) : List Pair :=
  ps.map (fun p =>
    if 0 < itemOrderCount orders p.item_a then
      { p with confidence :=
          (p.times_together : ℚ) / (itemOrderCount orders p.item_a : ℚ) }
    else p)

/-- `SimpleRecommendationEngine.update_pairs_from_order`.  `none` models the
`TypeError` raised when a null menu_item_id reaches the id comparison. -/
def update_pairs_from_order (s : EngineState) (o : OrderRec) : Option EngineState :=
  if o.status ≠ OrderStatus.COMPLETED then some s
  else if (orderItemIds o).length < 2 then some s
  else
    match canonKeys (combinations2 (orderItemIds o)) with
    | none => none
    | some ks =>
      some { s with pairs := updateConfidence s.orders (upsertAll s.pairs ks) }

/-! ### get_recommendations -/

/-- One returned recommendation record: the resolved other item, the
human-readable reason, the confidence as a rounded percentage, and the
underlying pair row (kept for tracking). -/
structure RecOut where
  item : Nat
  reason : String
  confidence_pct : ℚ
  pair : Pair
deriving DecidableEq

/-- The filter of the pair query in `get_recommendations`: the item appears on
either side, `confidence >= 0.15` and `times_together >= 2`. -/
def qualifies (x : Nat) (p : Pair) : Bool :=
  (p.item_a == x || p.item_b == x) &&
    decide ((0.15 : ℚ) ≤ p.confidence) && decide (2 ≤ p.times_together)

/-- The `order_by("-confidence", "-times_together")` ordering as a Boolean
total preorder: descending confidence, then descending times_together. -/
def recLE (p q : Pair) : Bool :=
  decide (q.confidence < p.confidence) ||
    (decide (p.confidence = q.confidence) && decide (q.times_together ≤ p.times_together))

/-- `pair.item_b if pair.item_a == item else pair.item_a`. -/
def otherItem (x : Nat) (p : Pair) : Nat :=
  if p.item_a == x then p.item_b else p.item_a

/-- `round(confidence * 100, 1)` on exact rationals: one decimal place.
(Python rounds float halves to even; the difference is immaterial here.) -/
def round1 (q : ℚ) : ℚ := (round (q * 10) : ℤ) / 10

/-- Building one entry of the returned list. -/
def mkRecOut (x : Nat) (p : Pair) : RecOut :=
  { item := otherItem x p,
    reason := toString p.times_together ++ " customers bought both",
    confidence_pct := round1 (p.confidence * 100),
    pair := p }

/-- `SimpleRecommendationEngine.get_recommendations`: filter the tenant's
pairs, sort by the descending keys, truncate to `limit`, then drop entries
whose other item is unavailable (the `continue` in the loop), building the
output records.  `avail` is the `is_available` column of the MenuItem table,
looked up through the pair's foreign keys. -/
def get_recommendations (s : EngineState) (avail : Nat → Bool) (x : Nat)
    (limit : Nat) : List RecOut :=
  let pairsQ := (((s.pairs.filter (qualifies x)).mergeSort recLE).take limit)
  (pairsQ.filter (fun p => avail (otherItem x p))).map (mkRecOut x)

/-! ### Event tracking -/

/-- The IMPRESSION event created by `track_impression` (revenue defaults
to 0 per spec §3). -/
def impressionEvent (source : Option Nat) (r : Nat) : EventRec :=
  { source_item := source, recommended_item := r,
    event_type := EventType.IMPRESSION, order := none, revenue := 0 }

/-- The CONVERSION event created by `track_conversion`. -/
def conversionEvent (r : Nat) (oid : Nat) (rev : ℚ) : EventRec :=
  { source_item := none, recommended_item := r,
    event_type := EventType.CONVERSION, order := some oid, revenue := rev }

/-- The increment branch of `_update_pair_stats` for `stat_type ==
"impression"`: bump `times_recommended` on the first row with the given key;
`DoesNotExist` is a soft no-op. -/
def bumpRecommended (ps : List Pair) (a b : Nat) : List Pair :=
  match ps with
  | [] => []
  | p :: rest =>
    if p.item_a = a ∧ p.item_b = b then
      { p with times_recommended := p.times_recommended + 1 } :: rest
    else
      p :: bumpRecommended rest a b

/-- `SimpleRecommendationEngine._update_pair_stats` with the canonical
reordering `if item_a.id > item_b.id: swap`. -/
def updatePairStats (ps : List Pair) (ia ib : Nat) : List Pair :=
  if ia > ib then bumpRecommended ps ib ia else bumpRecommended ps ia ib

/-- `SimpleRecommendationEngine.track_impression`: warn-and-return when no
recommended item, otherwise create the IMPRESSION event and, when a source
item is present, update the pair stats. -/
def track_impression (s : EngineState) (source r : Option Nat) : EngineState :=
  match r with
  | none => s
  | some ri =>
    match source with
    | none => { s with events := s.events ++ [impressionEvent source ri] }
    | some si =>
      { s with events := s.events ++ [impressionEvent source ri],
               pairs := updatePairStats s.pairs si ri }

/-- `order.items.filter(menu_item=recommended_item).first()` followed by
`order_item.total_price` (= quantity × price_at_order), defaulting to 0 when
the order has no line for the item. -/
def lineRevenue (o : OrderRec) (i : Nat) : ℚ :=
  match o.lines.find? (fun l => l.menu_item_id == some i) with
  | some l => (l.quantity : ℚ) * l.price_at_order
  | none => 0

/-- `SimpleRecommendationEngine.track_conversion`.  There is no guard on
`recommended_item`: with `None` the event insert is attempted anyway and, the
spec-modelled RecommendationEvent row requiring a recommended item, the insert
raises before any pair statistic is touched — modelled as `none`.  Otherwise
one CONVERSION event is appended and every pair containing the item gets
`times_converted += 1` and `revenue_generated += revenue`. -/
def track_conversion (s : EngineState) (r : Option Nat) (o : OrderRec)
    (revenue : Option ℚ) : Option EngineState :=
  match r with
  | none => none
  | some i =>
    let rev := match revenue with
      | some v => v
      | none => lineRevenue o i
    some { s with
      events := s.events ++ [conversionEvent i o.oid rev],
      pairs := s.pairs.map (fun p =>
        if p.item_a == i || p.item_b == i then
          { p with times_converted := p.times_converted + 1,
                   revenue_generated := p.revenue_generated + rev }
        else p) }

/-! ### The system's reachable states

States evolve by the order store's own lifecycle (rows inserted, rows edited
while not yet completed — COMPLETED being terminal per spec §3/§8) and by the
engine entry points.  `processed` is ghost bookkeeping for spec §6's required
caller-side guarantee: the completion trigger fires at most once per order. -/

/-- The database constraint `unique_together = [["order", "menu_item"]]` on
OrderItem (src/core/models.py): within one order the non-null menu_item
references are pairwise distinct (SQL uniqueness does not restrict nulls). -/
def linesConstraint (o : OrderRec) : Prop :=
  (o.lines.filterMap (fun l => l.menu_item_id)).Nodup

instance (o : OrderRec) : Decidable (linesConstraint o) := by
  unfold linesConstraint; infer_instance

/-- Engine state plus the ghost set of order ids whose completion trigger has
already fired. -/
structure SysState where
  eng : EngineState
  processed : List Nat
deriving DecidableEq

def SysState.init : SysState := ⟨EngineState.empty, []⟩

/-- One step of the system. -/
inductive Step : SysState → SysState → Prop where
  /-- A new order row is inserted (fresh id, OrderItem uniqueness holds). -/
  | addOrder (σ : SysState) (o : OrderRec)
      (hfresh : ∀ o' ∈ σ.eng.orders, o'.oid ≠ o.oid)
      (hlc : linesConstraint o) :
      Step σ ⟨{ σ.eng with orders := σ.eng.orders ++ [o] }, σ.processed⟩
  /-- A not-yet-completed order row is edited in place (status transition or
  line change); COMPLETED is terminal so completed rows are never edited. -/
  | editOrder (σ : SysState) (o o' : OrderRec)
      (hmem : o ∈ σ.eng.orders)
      (hst : o.status ≠ OrderStatus.COMPLETED)
      (hid : o'.oid = o.oid)
      (hlc : linesConstraint o') :
      Step σ ⟨{ σ.eng with
                 orders := σ.eng.orders.map (fun x => if x.oid = o.oid then o' else x) },
              σ.processed⟩
  /-- The post-save trigger calls `update_pairs_from_order` on a stored order;
  per spec §6 the caller never re-fires it for an already processed completed
  order.  Only non-raising calls are steps. -/
  | callUpdater (σ : SysState) (o : OrderRec) (e' : EngineState)
      (hmem : o ∈ σ.eng.orders)
      (honce : o.status = OrderStatus.COMPLETED → o.oid ∉ σ.processed)
      (hrun : update_pairs_from_order σ.eng o = some e') :
      Step σ ⟨e', if o.status = OrderStatus.COMPLETED
                  then o.oid :: σ.processed else σ.processed⟩
  /-- The serving layer records an impression. -/
  | callImpression (σ : SysState) (source r : Option Nat) :
      Step σ ⟨track_impression σ.eng source r, σ.processed⟩
  /-- The serving layer records a conversion (only non-raising calls are
  steps). -/
  | callConversion (σ : SysState) (r : Option Nat) (o : OrderRec)
      (rev : Option ℚ) (e' : EngineState)
      (hrun : track_conversion σ.eng r o rev = some e') :
      Step σ ⟨e', σ.processed⟩

/-- Reachability from the empty tenant. -/
inductive Reachable : SysState → Prop where
  | init : Reachable SysState.init
  | step {σ σ' : SysState} : Reachable σ → Step σ σ' → Reachable σ'

/-! ### Observation functions and the inductive invariant -/

/-- Row lookup by exact key, modelling
`ItemPairFrequency.objects.get(item_a=…, item_b=…)` (first matching row). -/
def findPair (ps : List Pair) (a b : Nat) : Option Pair :=
  ps.find? (fun p => p.item_a == a && p.item_b == b)

/-- The key column pair of every row. -/
def pairKeys (ps : List Pair) : List (Nat × Nat) :=
  ps.map (fun p => (p.item_a, p.item_b))

/-- Predicate of the ghost count below: a processed completed order containing
both given items. -/
def procPred (pr : List Nat) (a b : Nat) (x : OrderRec) : Bool :=
  decide (x.oid ∈ pr) && decide (x.status = OrderStatus.COMPLETED)
    && containsItem x a && containsItem x b

/-- Ghost count: processed completed orders of the store containing both given
items.  `times_together` of a row never exceeds this. -/
def procBoth (σ : SysState) (a b : Nat) : Nat :=
  (σ.eng.orders.filter (procPred σ.processed a b)).length

/-- The inductive invariant of reachable states. -/
structure Inv (σ : SysState) : Prop where
  oidsNodup : (σ.eng.orders.map (fun o => o.oid)).Nodup
  linesOK : ∀ o ∈ σ.eng.orders, linesConstraint o
  processedOK : ∀ i ∈ σ.processed,
    ∃ o ∈ σ.eng.orders, o.oid = i ∧ o.status = OrderStatus.COMPLETED
  canonical : ∀ p ∈ σ.eng.pairs, p.item_a < p.item_b
  keysNodup : (pairKeys σ.eng.pairs).Nodup
  timesBound : ∀ p ∈ σ.eng.pairs, p.times_together ≤ procBoth σ p.item_a p.item_b
  confBound : ∀ p ∈ σ.eng.pairs, 0 ≤ p.confidence ∧ p.confidence ≤ 1

/-! ### Concrete states used by witnesses and counterexamples -/

/-- A completed two-item order. -/
def ordW : OrderRec := ⟨1, OrderStatus.COMPLETED, [⟨some 1, 1, 5⟩, ⟨some 2, 2, 3⟩]⟩

/-- The same two lines while still pending. -/
def ordPending : OrderRec := ⟨1, OrderStatus.PENDING, [⟨some 1, 1, 5⟩, ⟨some 2, 2, 3⟩]⟩

/-- A completed order one of whose lines lost its menu item (`SET_NULL`). -/
def ordNull : OrderRec := ⟨3, OrderStatus.COMPLETED, [⟨none, 1, 4⟩, ⟨some 5, 1, 2⟩]⟩

/-- A store holding only `ordW`, with no pairs yet. -/
def stW : EngineState := ⟨[], [], [ordW]⟩

/-- A qualifying pair row: items 1 and 2 bought together 3 times,
confidence 1. -/
def pairW : Pair := ⟨1, 2, 3, 1, 0, 0, 0⟩

/-- A pair store for retrieval demos. -/
def stRec : EngineState := ⟨[pairW], [], []⟩

/-- Two qualifying rows for item 1, already in descending order: the stronger
one recommends item 2, the weaker one item 3. -/
def pairNB1 : Pair := ⟨1, 2, 5, 1, 0, 0, 0⟩

def pairNB2 : Pair := ⟨1, 3, 4, 1, 0, 0, 0⟩

def stNB : EngineState := ⟨[pairNB1, pairNB2], [], []⟩

/-- Availability map under which item 2 is unavailable. -/
def availNB : Nat → Bool := fun n => decide (n ≠ 2)

/-- A completed order with a single line. -/
def ordSingle : OrderRec := ⟨4, OrderStatus.COMPLETED, [⟨some 7, 1, 2⟩]⟩

/-- The system state after inserting `ordW` into an empty tenant. -/
def sysW : SysState := ⟨⟨[], [], [ordW]⟩, []⟩

/-- The system state after the completion trigger processed `ordW`: one pair
row (1,2) with one co-occurrence and confidence 1. -/
def sysW2 : SysState := ⟨⟨[⟨1, 2, 1, 1, 0, 0, 0⟩], [], [ordW]⟩, [1]⟩

/-! ### Lemmas about the pair enumeration -/

theorem combinations2_map (f : α → β) :
    ∀ l : List α,
      combinations2 (l.map f) = (combinations2 l).map (fun p => (f p.1, f p.2))
  | [] => rfl
  | x :: xs => by
    simp only [List.map_cons, combinations2, combinations2_map f xs,
      List.map_append, List.map_map]
    rfl

theorem mem_combinations2 :
    ∀ {l : List α} {a b : α}, (a, b) ∈ combinations2 l → a ∈ l ∧ b ∈ l := by
  intro l
  induction l with
  | nil => intro a b h; simp [combinations2] at h
  | cons x xs ih =>
    intro a b h
    simp only [combinations2, List.mem_append, List.mem_map] at h
    rcases h with ⟨y, hy, he⟩ | h
    · cases he
      exact ⟨List.mem_cons_self .., List.mem_cons_of_mem _ hy⟩
    · rcases ih h with ⟨ha, hb⟩
      exact ⟨List.mem_cons_of_mem _ ha, List.mem_cons_of_mem _ hb⟩

theorem ne_of_mem_combinations2 :
    ∀ {l : List α} {a b : α}, l.Nodup → (a, b) ∈ combinations2 l → a ≠ b := by
  intro l
  induction l with
  | nil => intro a b _ h; simp [combinations2] at h
  | cons x xs ih =>
    intro a b hnd h
    rcases List.nodup_cons.mp hnd with ⟨hx, hxs⟩
    simp only [combinations2, List.mem_append, List.mem_map] at h
    rcases h with ⟨y, hy, he⟩ | h
    · cases he
      exact fun hab => hx (hab ▸ hy)
    · exact ih hxs h

theorem combinations2_mem_of_mem :
    ∀ {l : List α} {a b : α}, a ∈ l → b ∈ l → a ≠ b →
      (a, b) ∈ combinations2 l ∨ (b, a) ∈ combinations2 l := by
  intro l
  induction l with
  | nil => intro a b ha; simp at ha
  | cons x xs ih =>
    intro a b ha hb hne
    simp only [combinations2, List.mem_append, List.mem_map]
    rcases List.mem_cons.mp ha with rfl | ha'
    · have hb' : b ∈ xs := by
        rcases List.mem_cons.mp hb with rfl | h
        · exact absurd rfl hne
        · exact h
      exact Or.inl (Or.inl ⟨b, hb', rfl⟩)
    · rcases List.mem_cons.mp hb with rfl | hb'
      · exact Or.inr (Or.inl ⟨a, ha', rfl⟩)
      · rcases ih ha' hb' hne with h | h
        · exact Or.inl (Or.inr h)
        · exact Or.inr (Or.inr h)

theorem length_combinations2 :
    ∀ l : List α, 2 * (combinations2 l).length = l.length * (l.length - 1)
  | [] => rfl
  | x :: xs => by
    have ih := length_combinations2 xs
    simp only [combinations2, List.length_append, List.length_map, List.length_cons]
    cases xs with
    | nil => rfl
    | cons y ys =>
      simp only [List.length_cons] at ih ⊢
      have hring : (ys.length + 1 + 1) * (ys.length + 1 + 1 - 1)
          = (ys.length + 1) * (ys.length + 1 - 1) + 2 * (ys.length + 1) := by
        simp only [Nat.add_sub_cancel]
        ring
      omega

/-- Every element of a list of length at least two occurs as a component of
some enumerated pair. -/
theorem mem_component_combinations2 {l : List α} {a : α}
    (h2 : 2 ≤ l.length) (ha : a ∈ l) :
    ∃ p ∈ combinations2 l, a = p.1 ∨ a = p.2 := by
  match l, h2 with
  | x :: y :: xs, _ =>
    rcases List.mem_cons.mp ha with rfl | ha'
    · exact ⟨(a, y), by
        simp only [combinations2, List.mem_append, List.mem_map]
        exact Or.inl ⟨y, List.mem_cons_self .., rfl⟩, Or.inl rfl⟩
    · refine ⟨(x, a), ?_, Or.inr rfl⟩
      simp only [combinations2, List.mem_append, List.mem_map]
      exact Or.inl ⟨a, ha', rfl⟩

/-! ### Lemmas about canonicalisation -/

theorem canonN_eq_min_max (a b : Nat) : canonN (a, b) = (min a b, max a b) := by
  unfold canonN
  split <;> simp only [Prod.mk.injEq] <;> omega

theorem canonN_lt {a b : Nat} (h : a ≠ b) :
    (canonN (a, b)).1 < (canonN (a, b)).2 := by
  rw [canonN_eq_min_max]; simp only; omega

theorem canonN_eq_iff {a b c d : Nat} :
    canonN (a, b) = canonN (c, d) ↔ (a = c ∧ b = d) ∨ (a = d ∧ b = c) := by
  rw [canonN_eq_min_max, canonN_eq_min_max]
  simp only [Prod.mk.injEq]
  omega

theorem canonKeys_all_some :
    ∀ {L : List (Option Nat × Option Nat)} {ks : List (Nat × Nat)},
      canonKeys L = some ks → ∀ p ∈ L, ∃ x y, p = (some x, some y) := by
  intro L
  induction L with
  | nil => intro ks _ p hp; simp at hp
  | cons q qs ih =>
    intro ks h p hp
    unfold canonKeys at h
    rcases hq : canonKey q with _ | k
    · rw [hq] at h; exact absurd h (by simp)
    · rcases hqs : canonKeys qs with _ | ks'
      · rw [hq, hqs] at h; exact absurd h (by simp)
      · rcases List.mem_cons.mp hp with rfl | hp'
        · rcases p with ⟨_ | x, _ | y⟩ <;> simp [canonKey] at hq ⊢
        · exact ih hqs p hp'

theorem canonKeys_map_some (L : List (Nat × Nat)) :
    canonKeys (L.map (fun p => (some p.1, some p.2))) = some (L.map canonN) := by
  induction L with
  | nil => rfl
  | cons q qs ih => simp [canonKeys, canonKey, ih]

/-- On a nodup id list, the canonicalised enumerated keys are nodup. -/
theorem nodup_map_canonN :
    ∀ {ns : List Nat}, ns.Nodup → ((combinations2 ns).map canonN).Nodup := by
  intro ns
  induction ns with
  | nil => intro; simp [combinations2]
  | cons x xs ih =>
    intro hnd
    rcases List.nodup_cons.mp hnd with ⟨hx, hxs⟩
    simp only [combinations2, List.map_append, List.map_map]
    rw [List.nodup_append]
    refine ⟨?_, ih hxs, ?_⟩
    · refine List.Nodup.map_on ?_ hxs
      intro y1 h1 y2 h2 he
      simp only [Function.comp_apply] at he
      rcases canonN_eq_iff.mp he with ⟨_, h⟩ | ⟨h1', h2'⟩
      · exact h
      · subst h1'; exact absurd h2 hx
    · intro k hk1 hk2
      simp only [List.mem_map, Function.comp_apply] at hk1 hk2
      rcases hk1 with ⟨y, hy, rfl⟩
      rcases hk2 with ⟨⟨a, b⟩, hab, he⟩
      rcases mem_combinations2 hab with ⟨haxs, hbxs⟩
      rcases canonN_eq_iff.mp he with ⟨rfl, rfl⟩ | ⟨rfl, rfl⟩
      · exact hx haxs
      · exact hx hbxs

/-- Characterisation of the canonicalised keys of a nodup id list. -/
theorem mem_map_canonN_iff {ns : List Nat} (hnd : ns.Nodup) {a b : Nat} :
    (a, b) ∈ (combinations2 ns).map canonN ↔ (a ∈ ns ∧ b ∈ ns ∧ a < b) := by
  constructor
  · intro h
    rcases List.mem_map.mp h with ⟨⟨x, y⟩, hxy, he⟩
    rcases mem_combinations2 hxy with ⟨hx, hy⟩
    have hne := ne_of_mem_combinations2 hnd hxy
    rw [canonN_eq_min_max] at he
    have ha : min x y = a := congrArg Prod.fst he
    have hb : max x y = b := congrArg Prod.snd he
    rcases le_total x y with hle | hle
    · rw [Nat.min_eq_left hle] at ha
      rw [Nat.max_eq_right hle] at hb
      exact ⟨ha ▸ hx, hb ▸ hy, by omega⟩
    · rw [Nat.min_eq_right hle] at ha
      rw [Nat.max_eq_left hle] at hb
      exact ⟨ha ▸ hy, hb ▸ hx, by omega⟩
  · intro ⟨ha, hb, hab⟩
    rcases combinations2_mem_of_mem ha hb (Nat.ne_of_lt hab) with h | h
    · refine List.mem_map.mpr ⟨(a, b), h, ?_⟩
      rw [canonN_eq_min_max]
      simp only [Prod.mk.injEq]
      omega
    · refine List.mem_map.mpr ⟨(b, a), h, ?_⟩
      rw [canonN_eq_min_max]
      simp only [Prod.mk.injEq]
      omega

/-! ### From a raising-free call to a clean id list -/

theorem exists_map_some {l : List (Option Nat)}
    (h : ∀ x ∈ l, ∃ n, x = some n) : ∃ ns : List Nat, l = ns.map some := by
  induction l with
  | nil => exact ⟨[], rfl⟩
  | cons x xs ih =>
    rcases h x (List.mem_cons_self ..) with ⟨n, rfl⟩
    rcases ih (fun y hy => h y (List.mem_cons_of_mem _ hy)) with ⟨ns, rfl⟩
    exact ⟨n :: ns, rfl⟩

/-- If canonicalisation of all enumerated pairs of at least two lines raises
no `TypeError`, every line id was non-null. -/
theorem ids_some_of_canonKeys {ids : List (Option Nat)} {ks : List (Nat × Nat)}
    (h2 : 2 ≤ ids.length) (h : canonKeys (combinations2 ids) = some ks) :
    ∃ ns : List Nat, ids = ns.map some := by
  apply exists_map_some
  intro x hx
  rcases mem_component_combinations2 h2 hx with ⟨p, hp, hcomp⟩
  rcases canonKeys_all_some h p hp with ⟨u, v, rfl⟩
  rcases hcomp with rfl | rfl
  · exact ⟨u, rfl⟩
  · exact ⟨v, rfl⟩

theorem canonKeys_of_ids {o : OrderRec} {ns : List Nat}
    (hids : orderItemIds o = ns.map some) :
    canonKeys (combinations2 (orderItemIds o))
      = some ((combinations2 ns).map canonN) := by
  rw [hids, combinations2_map]
  exact canonKeys_map_some _

/-- The OrderItem uniqueness constraint makes an all-non-null id list nodup. -/
theorem nodup_ids_of_linesConstraint {o : OrderRec} {ns : List Nat}
    (hlc : linesConstraint o) (hids : orderItemIds o = ns.map some) :
    ns.Nodup := by
  have h1 : o.lines.filterMap (fun l => l.menu_item_id) = ns := by
    have h2 : (orderItemIds o).filterMap id = ns := by
      rw [hids, List.filterMap_map]
      simp
    rw [orderItemIds, List.filterMap_map] at h2
    simpa using h2
  unfold linesConstraint at hlc
  rw [h1] at hlc
  exact hlc

/-! ### Lemmas about the pair-store upsert -/

theorem mem_upsertPair :
    ∀ {ps : List Pair} {k : Nat × Nat} {p' : Pair}, p' ∈ upsertPair ps k →
      p' ∈ ps ∨
      (∃ p ∈ ps, p.item_a = k.1 ∧ p.item_b = k.2 ∧
          p' = { p with times_together := p.times_together + 1 }) ∨
      p' = newPair k.1 k.2 := by
  intro ps
  induction ps with
  | nil =>
    intro k p' h
    simp only [upsertPair, List.mem_singleton] at h
    exact Or.inr (Or.inr h)
  | cons p rest ih =>
    intro k p' h
    unfold upsertPair at h
    by_cases hk : p.item_a = k.1 ∧ p.item_b = k.2
    · rw [if_pos hk] at h
      rcases List.mem_cons.mp h with rfl | h'
      · exact Or.inr (Or.inl ⟨p, List.mem_cons_self .., hk.1, hk.2, rfl⟩)
      · exact Or.inl (List.mem_cons_of_mem _ h')
    · rw [if_neg hk] at h
      rcases List.mem_cons.mp h with rfl | h'
      · exact Or.inl (List.mem_cons_self ..)
      · rcases ih h' with h'' | ⟨q, hq, h1, h2, h3⟩ | h''
        · exact Or.inl (List.mem_cons_of_mem _ h'')
        · exact Or.inr (Or.inl ⟨q, List.mem_cons_of_mem _ hq, h1, h2, h3⟩)
        · exact Or.inr (Or.inr h'')

theorem pairKeys_cons (p : Pair) (ps : List Pair) :
    pairKeys (p :: ps) = (p.item_a, p.item_b) :: pairKeys ps := rfl

theorem pairKeys_upsertPair (ps : List Pair) (k : Nat × Nat) :
    pairKeys (upsertPair ps k)
      = if k ∈ pairKeys ps then pairKeys ps else pairKeys ps ++ [k] := by
  induction ps with
  | nil => simp [upsertPair, pairKeys, newPair]
  | cons p rest ih =>
    by_cases hk : p.item_a = k.1 ∧ p.item_b = k.2
    · have hpk : (p.item_a, p.item_b) = k := by
        rw [Prod.ext_iff]
        exact ⟨hk.1, hk.2⟩
      have hmem : k ∈ pairKeys (p :: rest) := by
        rw [pairKeys_cons, hpk]
        exact List.mem_cons_self ..
      rw [if_pos hmem]
      unfold upsertPair
      rw [if_pos hk]
      rw [pairKeys_cons, pairKeys_cons]
    · unfold upsertPair
      rw [if_neg hk]
      rw [pairKeys_cons]
      have hkne : k ≠ (p.item_a, p.item_b) := fun hc => hk ⟨by rw [hc], by rw [hc]⟩
      by_cases hmem : k ∈ pairKeys rest
      · have : k ∈ pairKeys (p :: rest) := by
          rw [pairKeys_cons]; exact List.mem_cons_of_mem _ hmem
        rw [if_pos this, ih, if_pos hmem, pairKeys_cons]
      · have : k ∉ pairKeys (p :: rest) := by
          rw [pairKeys_cons]
          intro hc
          rcases List.mem_cons.mp hc with hc | hc
          · exact hkne hc
          · exact hmem hc
        rw [if_neg this, ih, if_neg hmem, pairKeys_cons]
        rfl

theorem keysNodup_upsertPair {ps : List Pair} {k : Nat × Nat}
    (h : (pairKeys ps).Nodup) : (pairKeys (upsertPair ps k)).Nodup := by
  rw [pairKeys_upsertPair]
  split
  · exact h
  · next hk =>
    rw [List.nodup_append]
    exact ⟨h, List.nodup_singleton _, by
      intro x hx hx'
      rw [List.mem_singleton] at hx'
      exact hk (hx' ▸ hx)⟩

theorem upsertAll_cons (ps : List Pair) (k : Nat × Nat) (ks : List (Nat × Nat)) :
    upsertAll ps (k :: ks) = upsertAll (upsertPair ps k) ks := rfl

theorem keysNodup_upsertAll :
    ∀ (ks : List (Nat × Nat)) (ps : List Pair),
      (pairKeys ps).Nodup → (pairKeys (upsertAll ps ks)).Nodup
  | [], _, h => h
  | k :: ks, ps, h =>
    keysNodup_upsertAll ks (upsertPair ps k) (keysNodup_upsertPair h)

theorem canonical_upsertPair {ps : List Pair} {k : Nat × Nat}
    (h : ∀ p ∈ ps, p.item_a < p.item_b) (hk : k.1 < k.2) :
    ∀ p' ∈ upsertPair ps k, p'.item_a < p'.item_b := by
  intro p' hp'
  rcases mem_upsertPair hp' with h1 | ⟨p, hp, _, _, rfl⟩ | rfl
  · exact h p' h1
  · exact h p hp
  · exact hk

theorem canonical_upsertAll :
    ∀ (ks : List (Nat × Nat)) (ps : List Pair),
      (∀ p ∈ ps, p.item_a < p.item_b) → (∀ k ∈ ks, k.1 < k.2) →
      ∀ p' ∈ upsertAll ps ks, p'.item_a < p'.item_b
  | [], _, h, _ => h
  | k :: ks, ps, h, hks =>
    canonical_upsertAll ks (upsertPair ps k)
      (canonical_upsertPair h (hks k (List.mem_cons_self ..)))
      (fun k' hk' => hks k' (List.mem_cons_of_mem _ hk'))

theorem confBound_upsertPair {ps : List Pair} {k : Nat × Nat}
    (h : ∀ p ∈ ps, 0 ≤ p.confidence ∧ p.confidence ≤ 1) :
    ∀ p' ∈ upsertPair ps k, 0 ≤ p'.confidence ∧ p'.confidence ≤ 1 := by
  intro p' hp'
  rcases mem_upsertPair hp' with h1 | ⟨p, hp, _, _, rfl⟩ | rfl
  · exact h p' h1
  · exact h p hp
  · constructor <;> norm_num [newPair]

theorem confBound_upsertAll :
    ∀ (ks : List (Nat × Nat)) (ps : List Pair),
      (∀ p ∈ ps, 0 ≤ p.confidence ∧ p.confidence ≤ 1) →
      ∀ p' ∈ upsertAll ps ks, 0 ≤ p'.confidence ∧ p'.confidence ≤ 1
  | [], _, h => h
  | k :: ks, ps, h =>
    confBound_upsertAll ks (upsertPair ps k) (confBound_upsertPair h)

/-! ### Row-lookup semantics of the upsert -/

theorem findPair_upsertPair_self (ps : List Pair) (k : Nat × Nat) :
    findPair (upsertPair ps k) k.1 k.2 =
      some (match findPair ps k.1 k.2 with
            | some p => { p with times_together := p.times_together + 1 }
            | none => newPair k.1 k.2) := by
  induction ps with
  | nil => simp [upsertPair, findPair, newPair]
  | cons p rest ih =>
    unfold upsertPair
    by_cases hk : p.item_a = k.1 ∧ p.item_b = k.2
    · rw [if_pos hk]
      unfold findPair
      rw [List.find?_cons_of_pos _ (by simp [hk.1, hk.2]),
        List.find?_cons_of_pos _ (by simp [hk.1, hk.2])]
    · rw [if_neg hk]
      have hpred : (p.item_a == k.1 && p.item_b == k.2) = false := by
        rw [Bool.and_eq_false_iff]
        by_cases h1 : p.item_a = k.1
        · exact Or.inr (by
            simp only [beq_eq_false_iff_ne, ne_eq]
            exact fun h2 => hk ⟨h1, h2⟩)
        · exact Or.inl (by simpa using h1)
      unfold findPair at ih ⊢
      rw [List.find?_cons_of_neg _ (by simp [hpred]),
        List.find?_cons_of_neg _ (by simp [hpred])]
      exact ih

theorem findPair_upsertPair_ne (ps : List Pair) (k : Nat × Nat) {a b : Nat}
    (hne : ¬(a = k.1 ∧ b = k.2)) :
    findPair (upsertPair ps k) a b = findPair ps a b := by
  induction ps with
  | nil =>
    simp only [upsertPair, findPair, List.find?]
    have : ((newPair k.1 k.2).item_a == a && (newPair k.1 k.2).item_b == b) = false := by
      rw [Bool.and_eq_false_iff]
      by_cases h1 : a = k.1
      · refine Or.inr ?_
        simp only [newPair, beq_eq_false_iff_ne, ne_eq]
        exact fun h2 => hne ⟨h1, h2.symm⟩
      · refine Or.inl ?_
        simp only [newPair, beq_eq_false_iff_ne, ne_eq]
        exact fun h2 => h1 h2.symm
    rw [this]
  | cons p rest ih =>
    unfold upsertPair
    by_cases hk : p.item_a = k.1 ∧ p.item_b = k.2
    · rw [if_pos hk]
      have hpred : ({ p with times_together := p.times_together + 1 }.item_a == a
          && { p with times_together := p.times_together + 1 }.item_b == b) = false := by
        simp only
        rw [Bool.and_eq_false_iff]
        by_cases h1 : p.item_a = a
        · refine Or.inr ?_
          simp only [beq_eq_false_iff_ne, ne_eq]
          exact fun h2 => hne ⟨h1 ▸ hk.1, h2 ▸ hk.2⟩
        · exact Or.inl (by simpa using h1)
      unfold findPair
      rw [List.find?_cons_of_neg _ (by simp [hpred])]
      by_cases hpab : p.item_a = a ∧ p.item_b = b
      · exact absurd ⟨hpab.1.symm.trans hk.1, hpab.2.symm.trans hk.2⟩ hne
      · have : (p.item_a == a && p.item_b == b) = false := by
          rw [Bool.and_eq_false_iff]
          by_cases h1 : p.item_a = a
          · exact Or.inr (by
              simp only [beq_eq_false_iff_ne, ne_eq]
              exact fun h2 => hpab ⟨h1, h2⟩)
          · exact Or.inl (by simpa using h1)
        rw [List.find?_cons_of_neg _ (by simp [this])]
    · rw [if_neg hk]
      unfold findPair at ih ⊢
      rw [List.find?_cons, List.find?_cons]
      cases hp : (p.item_a == a && p.item_b == b)
      · exact ih
      · rfl

theorem findPair_upsertAll :
    ∀ (ks : List (Nat × Nat)) (ps : List Pair), ks.Nodup → ∀ a b : Nat,
      findPair (upsertAll ps ks) a b =
        if (a, b) ∈ ks then
          some (match findPair ps a b with
                | some p => { p with times_together := p.times_together + 1 }
                | none => newPair a b)
        else findPair ps a b := by
  intro ks
  induction ks with
  | nil => intro ps _ a b; simp [upsertAll]
  | cons k ks ih =>
    intro ps hnd a b
    rcases List.nodup_cons.mp hnd with ⟨hk, hks⟩
    rw [upsertAll_cons]
    by_cases hab : (a, b) = k
    · subst hab
      rw [ih (upsertPair ps (a, b)) hks a b, if_neg hk,
        if_pos (List.mem_cons_self ..)]
      exact findPair_upsertPair_self ps (a, b)
    · rw [ih (upsertPair ps k) hks a b]
      have hne : ¬(a = k.1 ∧ b = k.2) := by
        intro ⟨h1, h2⟩
        exact hab (by rw [Prod.ext_iff]; exact ⟨h1, h2⟩)
      rw [findPair_upsertPair_ne ps k hne]
      by_cases hin : (a, b) ∈ ks
      · rw [if_pos hin, if_pos (List.mem_cons_of_mem _ hin)]
      · rw [if_neg hin, if_neg (by
          intro hc
          rcases List.mem_cons.mp hc with hc | hc
          · exact hab hc
          · exact hin hc)]

/-! ### The counting bound through the upsert loop -/

theorem timesBound_upsertAll (B : Nat × Nat → Nat) :
    ∀ (ks : List (Nat × Nat)) (ps : List Pair), ks.Nodup →
      (∀ p ∈ ps, p.times_together ≤ B (p.item_a, p.item_b)) →
      (∀ p ∈ ps, (p.item_a, p.item_b) ∈ ks →
        p.times_together + 1 ≤ B (p.item_a, p.item_b)) →
      (∀ k ∈ ks, 1 ≤ B k) →
      ∀ p' ∈ upsertAll ps ks, p'.times_together ≤ B (p'.item_a, p'.item_b) := by
  intro ks
  induction ks with
  | nil => intro ps _ h1 _ _ p' hp'; exact h1 p' hp'
  | cons k ks ih =>
    intro ps hnd h1 h2 h3 p' hp'
    rcases List.nodup_cons.mp hnd with ⟨hknotin, hksnd⟩
    rw [upsertAll_cons] at hp'
    refine ih (upsertPair ps k) hksnd ?_ ?_
      (fun k' hk' => h3 k' (List.mem_cons_of_mem _ hk')) p' hp'
    · intro q hq
      rcases mem_upsertPair hq with hmem | ⟨p, hp, ha, hb, rfl⟩ | rfl
      · exact h1 q hmem
      · have : (p.item_a, p.item_b) = k := by
          rw [Prod.ext_iff]; exact ⟨ha, hb⟩
        simpa using h2 p hp (this ▸ List.mem_cons_self ..)
      · simpa [newPair] using h3 k (List.mem_cons_self ..)
    · intro q hq hqin
      rcases mem_upsertPair hq with hmem | ⟨p, hp, ha, hb, rfl⟩ | rfl
      · exact h2 q hmem (List.mem_cons_of_mem _ hqin)
      · have hkk : (p.item_a, p.item_b) = k := by
          rw [Prod.ext_iff]; exact ⟨ha, hb⟩
        simp only at hqin
        rw [hkk] at hqin
        exact absurd hqin hknotin
      · simp only [newPair] at hqin
        exact absurd hqin hknotin

/-! ### Shape lemmas for the confidence recomputation and the trackers -/

theorem mem_updateConfidence {orders : List OrderRec} {ps : List Pair} {q : Pair}
    (h : q ∈ updateConfidence orders ps) :
    ∃ p ∈ ps, q.item_a = p.item_a ∧ q.item_b = p.item_b ∧
      q.times_together = p.times_together ∧
      ((0 < itemOrderCount orders p.item_a ∧
          q.confidence = (p.times_together : ℚ) / (itemOrderCount orders p.item_a : ℚ)) ∨
        (itemOrderCount orders p.item_a = 0 ∧ q.confidence = p.confidence)) := by
  rcases List.mem_map.mp h with ⟨p, hp, rfl⟩
  refine ⟨p, hp, ?_⟩
  by_cases hc : 0 < itemOrderCount orders p.item_a
  · rw [if_pos hc]
    exact ⟨rfl, rfl, rfl, Or.inl ⟨hc, rfl⟩⟩
  · rw [if_neg hc]
    exact ⟨rfl, rfl, rfl, Or.inr ⟨by omega, rfl⟩⟩

theorem pairKeys_updateConfidence (orders : List OrderRec) (ps : List Pair) :
    pairKeys (updateConfidence orders ps) = pairKeys ps := by
  unfold pairKeys updateConfidence
  rw [List.map_map]
  apply List.map_congr_left
  intro p _
  simp only [Function.comp_apply]
  split <;> rfl

theorem mem_bumpRecommended :
    ∀ {ps : List Pair} {a b : Nat} {q : Pair}, q ∈ bumpRecommended ps a b →
      ∃ p ∈ ps, q.item_a = p.item_a ∧ q.item_b = p.item_b ∧
        q.times_together = p.times_together ∧ q.confidence = p.confidence := by
  intro ps
  induction ps with
  | nil => intro a b q h; simp [bumpRecommended] at h
  | cons p rest ih =>
    intro a b q h
    unfold bumpRecommended at h
    split at h
    · rcases List.mem_cons.mp h with rfl | h'
      · exact ⟨p, List.mem_cons_self .., rfl, rfl, rfl, rfl⟩
      · exact ⟨q, List.mem_cons_of_mem _ h', rfl, rfl, rfl, rfl⟩
    · rcases List.mem_cons.mp h with rfl | h'
      · exact ⟨q, List.mem_cons_self .., rfl, rfl, rfl, rfl⟩
      · rcases ih h' with ⟨p', hp', h1, h2, h3, h4⟩
        exact ⟨p', List.mem_cons_of_mem _ hp', h1, h2, h3, h4⟩

theorem pairKeys_bumpRecommended :
    ∀ (ps : List Pair) (a b : Nat), pairKeys (bumpRecommended ps a b) = pairKeys ps := by
  intro ps
  induction ps with
  | nil => intro a b; rfl
  | cons p rest ih =>
    intro a b
    unfold bumpRecommended
    split
    · rw [pairKeys_cons, pairKeys_cons]
    · rw [pairKeys_cons, pairKeys_cons, ih]

/-- The pair list produced by `track_impression` preserves keys,
times_together and confidence row by row. -/
theorem track_impression_pairs_shape (s : EngineState) (source r : Option Nat) :
    (∀ q ∈ (track_impression s source r).pairs,
      ∃ p ∈ s.pairs, q.item_a = p.item_a ∧ q.item_b = p.item_b ∧
        q.times_together = p.times_together ∧ q.confidence = p.confidence) ∧
    pairKeys (track_impression s source r).pairs = pairKeys s.pairs ∧
    (track_impression s source r).orders = s.orders := by
  rcases r with _ | ri
  · exact ⟨fun q hq => ⟨q, hq, rfl, rfl, rfl, rfl⟩, rfl, rfl⟩
  · rcases source with _ | si
    · exact ⟨fun q hq => ⟨q, hq, rfl, rfl, rfl, rfl⟩, rfl, rfl⟩
    · refine ⟨?_, ?_, rfl⟩
      · intro q hq
        have hq' : q ∈ updatePairStats s.pairs si ri := hq
        unfold updatePairStats at hq'
        split at hq'
        · exact mem_bumpRecommended hq'
        · exact mem_bumpRecommended hq'
      · show pairKeys (updatePairStats s.pairs si ri) = pairKeys s.pairs
        unfold updatePairStats
        split
        · exact pairKeys_bumpRecommended ..
        · exact pairKeys_bumpRecommended ..

/-- The pair list produced by a successful `track_conversion` preserves keys,
times_together and confidence row by row. -/
theorem track_conversion_pairs_shape (s : EngineState) (i : Nat) (o : OrderRec)
    (rev : Option ℚ) (e' : EngineState)
    (hrun : track_conversion s (some i) o rev = some e') :
    (∀ q ∈ e'.pairs,
      ∃ p ∈ s.pairs, q.item_a = p.item_a ∧ q.item_b = p.item_b ∧
        q.times_together = p.times_together ∧ q.confidence = p.confidence) ∧
    pairKeys e'.pairs = pairKeys s.pairs ∧ e'.orders = s.orders := by
  unfold track_conversion at hrun
  simp only [Option.some.injEq] at hrun
  subst hrun
  refine ⟨?_, ?_, rfl⟩
  · intro q hq
    rcases List.mem_map.mp hq with ⟨p, hp, rfl⟩
    split <;> exact ⟨p, hp, rfl, rfl, rfl, rfl⟩
  · unfold pairKeys
    rw [List.map_map]
    apply List.map_congr_left
    intro p _
    simp only [Function.comp_apply]
    split <;> rfl

theorem track_conversion_none (s : EngineState) (o : OrderRec) (rev : Option ℚ) :
    track_conversion s none o rev = none := rfl

/-! ### Filtered-length helpers for the counting argument -/

theorem length_filter_mono {l : List α} {p q : α → Bool}
    (h : ∀ x ∈ l, p x = true → q x = true) :
    (l.filter p).length ≤ (l.filter q).length := by
  rw [← List.countP_eq_length_filter, ← List.countP_eq_length_filter]
  exact List.countP_mono_left h

theorem length_filter_succ_le {l : List α} {p q : α → Bool} {o : α}
    (ho : o ∈ l) (himp : ∀ x ∈ l, p x = true → q x = true)
    (hpo : p o = false) (hqo : q o = true) :
    (l.filter p).length + 1 ≤ (l.filter q).length := by
  induction l with
  | nil => cases ho
  | cons x xs ih =>
    have himp' : ∀ y ∈ xs, p y = true → q y = true :=
      fun y hy => himp y (List.mem_cons_of_mem _ hy)
    rcases List.mem_cons.mp ho with rfl | ho'
    · have hm := length_filter_mono himp'
      simp [List.filter_cons, hpo, hqo]
      omega
    · cases hp : p x
      · have hr := ih ho' himp'
        cases hq : q x <;> simp [List.filter_cons, hp, hq] <;> omega
      · have hqx := himp x (List.mem_cons_self ..) hp
        have hr := ih ho' himp'
        simp [List.filter_cons, hp, hqx]
        omega

/-! ### Invariant preservation -/

theorem oid_injective {σ : SysState} (hinv : Inv σ) {x y : OrderRec}
    (hx : x ∈ σ.eng.orders) (hy : y ∈ σ.eng.orders) (h : x.oid = y.oid) :
    x = y :=
  List.inj_on_of_nodup_map hinv.oidsNodup hx hy h

/-- An order still pending in the store was never processed. -/
theorem not_processed_of_not_completed {σ : SysState} (hinv : Inv σ)
    {o : OrderRec} (hmem : o ∈ σ.eng.orders)
    (hst : o.status ≠ OrderStatus.COMPLETED) : o.oid ∉ σ.processed := by
  intro hc
  rcases hinv.processedOK o.oid hc with ⟨w, hw, hoid, hwst⟩
  have := oid_injective hinv hw hmem hoid
  subst this
  exact hst hwst

theorem inv_addOrder (σ : SysState) (o : OrderRec)
    (hfresh : ∀ o' ∈ σ.eng.orders, o'.oid ≠ o.oid) (hlc : linesConstraint o)
    (hinv : Inv σ) :
    Inv ⟨{ σ.eng with orders := σ.eng.orders ++ [o] }, σ.processed⟩ := by
  have hproc : ∀ a b, procBoth σ a b
      ≤ procBoth ⟨{ σ.eng with orders := σ.eng.orders ++ [o] }, σ.processed⟩ a b := by
    intro a b
    unfold procBoth
    simp only [List.filter_append, List.length_append]
    exact Nat.le_add_right _ _
  refine ⟨?_, ?_, ?_, hinv.canonical, hinv.keysNodup, ?_, hinv.confBound⟩
  · simp only [List.map_append, List.map_cons, List.map_nil]
    rw [List.nodup_append]
    refine ⟨hinv.oidsNodup, List.nodup_singleton _, ?_⟩
    intro x hx hx'
    rw [List.mem_singleton] at hx'
    rcases List.mem_map.mp hx with ⟨w, hw, rfl⟩
    exact hfresh w hw hx'
  · intro x hx
    rcases List.mem_append.mp hx with hx | hx
    · exact hinv.linesOK x hx
    · rw [List.mem_singleton] at hx
      exact hx ▸ hlc
  · intro i hi
    rcases hinv.processedOK i hi with ⟨w, hw, h1, h2⟩
    exact ⟨w, List.mem_append_left _ hw, h1, h2⟩
  · intro p hp
    exact le_trans (hinv.timesBound p hp) (hproc ..)

theorem inv_editOrder (σ : SysState) (o o' : OrderRec)
    (hmem : o ∈ σ.eng.orders) (hst : o.status ≠ OrderStatus.COMPLETED)
    (hid : o'.oid = o.oid) (hlc : linesConstraint o') (hinv : Inv σ) :
    Inv ⟨{ σ.eng with
            orders := σ.eng.orders.map (fun x => if x.oid = o.oid then o' else x) },
         σ.processed⟩ := by
  have hnp : o.oid ∉ σ.processed := not_processed_of_not_completed hinv hmem hst
  have hoid_eq : ∀ x : OrderRec,
      (if x.oid = o.oid then o' else x).oid = x.oid := by
    intro x
    split
    · next h => rw [hid, h]
    · rfl
  have horders : ∀ a b,
      (σ.eng.orders.map (fun x => if x.oid = o.oid then o' else x)).filter
          (procPred σ.processed a b)
        = (σ.eng.orders.filter (procPred σ.processed a b)).map
            (fun x => if x.oid = o.oid then o' else x) := by
    intro a b
    rw [List.filter_map]
    congr 1
    apply List.filter_congr
    intro x _
    simp only [Function.comp_apply]
    by_cases hx : x.oid = o.oid
    · have hxnp : x.oid ∉ σ.processed := hx ▸ hnp
      have h1 : procPred σ.processed a b x = false := by
        unfold procPred
        simp [hxnp]
      have h2 : procPred σ.processed a b (if x.oid = o.oid then o' else x) = false := by
        rw [if_pos hx]
        unfold procPred
        simp [hid ▸ hx ▸ hxnp]
      rw [h1, h2]
    · rw [if_neg hx]
  refine ⟨?_, ?_, ?_, hinv.canonical, hinv.keysNodup, ?_, hinv.confBound⟩
  · rw [List.map_map]
    have : (fun x : OrderRec => x.oid) ∘ (fun x => if x.oid = o.oid then o' else x)
        = fun x : OrderRec => x.oid := by
      funext x
      exact hoid_eq x
    rw [this]
    exact hinv.oidsNodup
  · intro x hx
    rcases List.mem_map.mp hx with ⟨w, hw, rfl⟩
    split
    · exact hlc
    · exact hinv.linesOK w hw
  · intro i hi
    rcases hinv.processedOK i hi with ⟨w, hw, h1, h2⟩
    have hwne : w.oid ≠ o.oid := by
      intro hc
      have := oid_injective hinv hw hmem hc
      subst this
      exact hst h2
    refine ⟨w, ?_, h1, h2⟩
    have : (if w.oid = o.oid then o' else w) = w := if_neg hwne
    exact this ▸ List.mem_map_of_mem _ hw
  · intro p hp
    have := hinv.timesBound p hp
    unfold procBoth at this ⊢
    rw [horders, List.length_map]
    exact this

theorem length_procPred_cons (orders : List OrderRec) (pr : List Nat)
    (i a b : Nat) :
    (orders.filter (procPred pr a b)).length
      ≤ (orders.filter (procPred (i :: pr) a b)).length := by
  apply length_filter_mono
  intro x _ hx
  unfold procPred at hx ⊢
  simp only [Bool.and_eq_true, decide_eq_true_eq, List.mem_cons] at hx ⊢
  tauto

theorem length_procPred_succ {orders : List OrderRec} {pr : List Nat}
    {o : OrderRec} {a b : Nat} (hmem : o ∈ orders) (hnp : o.oid ∉ pr)
    (hst : o.status = OrderStatus.COMPLETED)
    (ha : containsItem o a = true) (hb : containsItem o b = true) :
    (orders.filter (procPred pr a b)).length + 1
      ≤ (orders.filter (procPred (o.oid :: pr) a b)).length := by
  refine length_filter_succ_le hmem ?_ ?_ ?_
  · intro x _ hx
    unfold procPred at hx ⊢
    simp only [Bool.and_eq_true, decide_eq_true_eq, List.mem_cons] at hx ⊢
    tauto
  · unfold procPred
    simp [hnp]
  · unfold procPred
    simp [hst, ha, hb]

theorem length_procPred_le_itemOrderCount (orders : List OrderRec)
    (pr : List Nat) (a b : Nat) :
    (orders.filter (procPred pr a b)).length ≤ itemOrderCount orders a := by
  unfold itemOrderCount
  apply length_filter_mono
  intro x _ hx
  unfold procPred at hx
  simp only [Bool.and_eq_true, decide_eq_true_eq] at hx ⊢
  exact ⟨hx.1.1.2, hx.1.2⟩

theorem inv_callUpdater (σ : SysState) (o : OrderRec) (e' : EngineState)
    (hmem : o ∈ σ.eng.orders)
    (honce : o.status = OrderStatus.COMPLETED → o.oid ∉ σ.processed)
    (hrun : update_pairs_from_order σ.eng o = some e') (hinv : Inv σ) :
    Inv ⟨e', if o.status = OrderStatus.COMPLETED
             then o.oid :: σ.processed else σ.processed⟩ := by
  unfold update_pairs_from_order at hrun
  by_cases hst : o.status = OrderStatus.COMPLETED
  case neg =>
    rw [if_neg hst]
    rw [if_pos hst, Option.some.injEq] at hrun
    subst hrun
    exact hinv
  case pos =>
    rw [if_pos hst]
    rw [if_neg (show ¬o.status ≠ OrderStatus.COMPLETED from fun h => h hst)] at hrun
    have hnp : o.oid ∉ σ.processed := honce hst
    by_cases hlen : (orderItemIds o).length < 2
    case pos =>
      rw [if_pos hlen, Option.some.injEq] at hrun
      subst hrun
      refine ⟨hinv.oidsNodup, hinv.linesOK, ?_, hinv.canonical, hinv.keysNodup,
        ?_, hinv.confBound⟩
      · intro i hi
        rcases List.mem_cons.mp hi with rfl | hi'
        · exact ⟨o, hmem, rfl, hst⟩
        · exact hinv.processedOK i hi'
      · intro p hp
        exact le_trans (hinv.timesBound p hp) (length_procPred_cons ..)
    case neg =>
      rw [if_neg hlen] at hrun
      rcases hck : canonKeys (combinations2 (orderItemIds o)) with _ | ks
      · rw [hck] at hrun; cases hrun
      rw [hck, Option.some.injEq] at hrun
      subst hrun
      have hlc := hinv.linesOK o hmem
      have h2 : 2 ≤ (orderItemIds o).length := Nat.le_of_not_lt hlen
      rcases ids_some_of_canonKeys h2 hck with ⟨ns, hns⟩
      have hnsnd : ns.Nodup := nodup_ids_of_linesConstraint hlc hns
      have hks : ks = (combinations2 ns).map canonN := by
        have h := canonKeys_of_ids hns
        rw [hck] at h
        exact Option.some.inj h
      subst hks
      have hcontains : ∀ a ∈ ns, containsItem o a = true := by
        intro a ha
        have hsome : some a ∈ orderItemIds o := by
          rw [hns]
          exact List.mem_map_of_mem some ha
        rcases List.mem_map.mp hsome with ⟨l, hl, hle⟩
        unfold containsItem
        rw [List.any_eq_true]
        exact ⟨l, hl, by rw [hle]; exact beq_self_eq_true _⟩
      have hksnd : ((combinations2 ns).map canonN).Nodup := nodup_map_canonN hnsnd
      have hkcanon : ∀ k ∈ (combinations2 ns).map canonN, k.1 < k.2 := by
        intro k hk
        rcases k with ⟨a, b⟩
        exact ((mem_map_canonN_iff hnsnd).mp hk).2.2
      have hkcont : ∀ k ∈ (combinations2 ns).map canonN,
          containsItem o k.1 = true ∧ containsItem o k.2 = true := by
        intro k hk
        rcases k with ⟨a, b⟩
        rcases (mem_map_canonN_iff hnsnd).mp hk with ⟨ha, hb, _⟩
        exact ⟨hcontains a ha, hcontains b hb⟩
      have hplus : ∀ k ∈ (combinations2 ns).map canonN,
          (σ.eng.orders.filter (procPred σ.processed k.1 k.2)).length + 1
            ≤ (σ.eng.orders.filter (procPred (o.oid :: σ.processed) k.1 k.2)).length :=
        fun k hk =>
          length_procPred_succ hmem hnp hst (hkcont k hk).1 (hkcont k hk).2
      have htimes : ∀ p' ∈ upsertAll σ.eng.pairs ((combinations2 ns).map canonN),
          p'.times_together
            ≤ (σ.eng.orders.filter
                (procPred (o.oid :: σ.processed) p'.item_a p'.item_b)).length := by
        refine timesBound_upsertAll
          (fun k => (σ.eng.orders.filter
            (procPred (o.oid :: σ.processed) k.1 k.2)).length)
          ((combinations2 ns).map canonN) σ.eng.pairs hksnd ?_ ?_ ?_
        · intro p hp
          exact le_trans (hinv.timesBound p hp) (length_procPred_cons ..)
        · intro p hp hin
          exact le_trans (Nat.add_le_add_right (hinv.timesBound p hp) 1)
            (hplus _ hin)
        · intro k hk
          exact le_trans (Nat.le_add_left 1 _) (hplus k hk)
      refine ⟨hinv.oidsNodup, hinv.linesOK, ?_, ?_, ?_, ?_, ?_⟩
      · intro i hi
        rcases List.mem_cons.mp hi with rfl | hi'
        · exact ⟨o, hmem, rfl, hst⟩
        · exact hinv.processedOK i hi'
      · intro q hq
        rcases mem_updateConfidence hq with ⟨p', hp', ha, hb, _, _⟩
        rw [ha, hb]
        exact canonical_upsertAll _ _ hinv.canonical hkcanon p' hp'
      · show (pairKeys (updateConfidence σ.eng.orders
          (upsertAll σ.eng.pairs ((combinations2 ns).map canonN)))).Nodup
        rw [pairKeys_updateConfidence]
        exact keysNodup_upsertAll _ _ hinv.keysNodup
      · intro q hq
        rcases mem_updateConfidence hq with ⟨p', hp', ha, hb, ht, _⟩
        show q.times_together
          ≤ (σ.eng.orders.filter
              (procPred (o.oid :: σ.processed) q.item_a q.item_b)).length
        rw [ha, hb, ht]
        exact htimes p' hp'
      · intro q hq
        rcases mem_updateConfidence hq with ⟨p', hp', ha, hb, ht, hc⟩
        rcases hc with ⟨hpos, hconf⟩ | ⟨hzero, hconf⟩
        · rw [hconf]
          constructor
          · positivity
          · rw [div_le_one (by exact_mod_cast hpos)]
            have hle : p'.times_together ≤ itemOrderCount σ.eng.orders p'.item_a :=
              le_trans (htimes p' hp')
                (length_procPred_le_itemOrderCount ..)
            exact_mod_cast hle
        · rw [hconf]
          exact confBound_upsertAll _ _ hinv.confBound p' hp'

theorem inv_trackShape (σ : SysState) (e' : EngineState)
    (hshape : ∀ q ∈ e'.pairs,
      ∃ p ∈ σ.eng.pairs, q.item_a = p.item_a ∧ q.item_b = p.item_b ∧
        q.times_together = p.times_together ∧ q.confidence = p.confidence)
    (hkeys : pairKeys e'.pairs = pairKeys σ.eng.pairs)
    (horders : e'.orders = σ.eng.orders) (hinv : Inv σ) :
    Inv ⟨e', σ.processed⟩ := by
  refine ⟨?_, ?_, ?_, ?_, ?_, ?_, ?_⟩
  · show (e'.orders.map (fun o => o.oid)).Nodup
    rw [horders]
    exact hinv.oidsNodup
  · show ∀ o ∈ e'.orders, linesConstraint o
    rw [horders]
    exact hinv.linesOK
  · intro i hi
    rcases hinv.processedOK i hi with ⟨w, hw, h1, h2⟩
    exact ⟨w, horders ▸ hw, h1, h2⟩
  · intro q hq
    rcases hshape q hq with ⟨p, hp, ha, hb, _, _⟩
    rw [ha, hb]
    exact hinv.canonical p hp
  · show (pairKeys e'.pairs).Nodup
    rw [hkeys]
    exact hinv.keysNodup
  · intro q hq
    rcases hshape q hq with ⟨p, hp, ha, hb, ht, _⟩
    have hb' := hinv.timesBound p hp
    unfold procBoth at hb' ⊢
    show q.times_together
      ≤ (e'.orders.filter (procPred σ.processed q.item_a q.item_b)).length
    rw [horders, ha, hb, ht]
    exact hb'
  · intro q hq
    rcases hshape q hq with ⟨p, hp, _, _, _, hc⟩
    rw [hc]
    exact hinv.confBound p hp

theorem inv_init : Inv SysState.init := by
  refine ⟨?_, ?_, ?_, ?_, ?_, ?_, ?_⟩ <;>
    simp [SysState.init, EngineState.empty, pairKeys, procBoth]

theorem reachable_inv {σ : SysState} (h : Reachable σ) : Inv σ := by
  induction h with
  | init => exact inv_init
  | step hr hs ih =>
    cases hs with
    | addOrder o hfresh hlc => exact inv_addOrder _ o hfresh hlc ih
    | editOrder o o' hmem hst hid hlc =>
      exact inv_editOrder _ o o' hmem hst hid hlc ih
    | callUpdater o e' hmem honce hrun =>
      exact inv_callUpdater _ o e' hmem honce hrun ih
    | callImpression source r =>
      rcases track_impression_pairs_shape _ source r with ⟨h1, h2, h3⟩
      exact inv_trackShape _ _ h1 h2 h3 ih
    | callConversion r o rev e' hrun =>
      rcases r with _ | i
      · rw [track_conversion_none] at hrun; cases hrun
      · rcases track_conversion_pairs_shape _ i o rev e' hrun with ⟨h1, h2, h3⟩
        exact inv_trackShape _ _ h1 h2 h3 ih

/-! ### Lemmas about the retrieval ordering -/

theorem recLE_iff (p q : Pair) :
    recLE p q = true ↔
      (q.confidence < p.confidence ∨
        (p.confidence = q.confidence ∧ q.times_together ≤ p.times_together)) := by
  unfold recLE
  simp

theorem recLE_trans (a b c : Pair) :
    recLE a b → recLE b c → recLE a c := by
  intro h1 h2
  rw [recLE_iff] at h1 h2 ⊢
  rcases h1 with h1 | ⟨h1e, h1t⟩
  · rcases h2 with h2 | ⟨h2e, h2t⟩
    · exact Or.inl (lt_trans h2 h1)
    · exact Or.inl (h2e ▸ h1)
  · rcases h2 with h2 | ⟨h2e, h2t⟩
    · exact Or.inl (h1e ▸ h2)
    · exact Or.inr ⟨h1e.trans h2e, le_trans h2t h1t⟩

theorem recLE_total (a b : Pair) : recLE a b || recLE b a := by
  rw [Bool.or_eq_true, recLE_iff, recLE_iff]
  rcases lt_trichotomy a.confidence b.confidence with h | h | h
  · exact Or.inr (Or.inl h)
  · rcases Nat.le_total b.times_together a.times_together with ht | ht
    · exact Or.inl (Or.inr ⟨h, ht⟩)
    · exact Or.inr (Or.inr ⟨h.symm, ht⟩)
  · exact Or.inl (Or.inl h)

/-- The item and pair carried by one output record. -/
theorem mkRecOut_item (x : Nat) (p : Pair) : (mkRecOut x p).item = otherItem x p := rfl

theorem mkRecOut_pair (x : Nat) (p : Pair) : (mkRecOut x p).pair = p := rfl

/-- Unfolding membership in the returned recommendation list. -/
theorem mem_get_recommendations {s : EngineState} {avail : Nat → Bool}
    {x limit : Nat} {r : RecOut} (hr : r ∈ get_recommendations s avail x limit) :
    ∃ p, r = mkRecOut x p ∧ p ∈ s.pairs ∧ qualifies x p = true ∧
      avail (otherItem x p) = true := by
  unfold get_recommendations at hr
  rcases List.mem_map.mp hr with ⟨p, hp, rfl⟩
  rcases List.mem_filter.mp hp with ⟨hpt, hpa⟩
  have hpm : p ∈ (s.pairs.filter (qualifies x)).mergeSort recLE :=
    List.mem_of_mem_take hpt
  rw [List.mem_mergeSort] at hpm
  rcases List.mem_filter.mp hpm with ⟨hps, hpq⟩
  exact ⟨p, rfl, hps, hpq, hpa⟩

theorem qualifies_spec {x : Nat} {p : Pair} (h : qualifies x p = true) :
    (p.item_a = x ∨ p.item_b = x) ∧ (0.15 : ℚ) ≤ p.confidence ∧
      2 ≤ p.times_together := by
  unfold qualifies at h
  simp only [Bool.and_eq_true, Bool.or_eq_true, beq_iff_eq,
    decide_eq_true_eq] at h
  exact ⟨h.1.1, h.1.2, h.2⟩

/-! ### Concrete evaluation helpers for the witnesses -/

theorem eval_update_sysW :
    update_pairs_from_order sysW.eng ordW
      = some ⟨[⟨1, 2, 1, 1, 0, 0, 0⟩], [], [ordW]⟩ := by
  simp [update_pairs_from_order, sysW, ordW, orderItemIds, combinations2,
    canonKeys, canonKey, canonN, upsertAll, upsertPair, updateConfidence,
    itemOrderCount, containsItem, newPair]

theorem reachable_sysW2 : Reachable sysW2 := by
  have h1 : Reachable sysW := by
    refine Reachable.step Reachable.init
      (Step.addOrder SysState.init ordW ?_ (by decide))
    intro o' h
    cases h
  exact Reachable.step h1
    (Step.callUpdater sysW ordW ⟨[⟨1, 2, 1, 1, 0, 0, 0⟩], [], [ordW]⟩
      (List.mem_cons_self ..) (fun _ h => (List.not_mem_nil _) h)
      eval_update_sysW)

/-! ### The claims -/

/-- C1: one call of `update_pairs_from_order` on a COMPLETED order whose lines
reference N ≥ 2 distinct menu items upserts exactly C(N,2) = N(N−1)/2 pair
rows — one per unordered pair of the order's items, canonicalised so the
smaller id is item_a — creating a missing row with times_together = 1 (the
`newPair` default) and incrementing times_together by exactly 1 on an existing
row (all other columns untouched); the upsert step changes no other pair
row. -/
theorem C1_pair_upserts (s : EngineState) (o : OrderRec) (ns : List Nat)
    (hst : o.status = OrderStatus.COMPLETED)
    (hids : orderItemIds o = ns.map some)
    (hnd : ns.Nodup) (hN : 2 ≤ ns.length) :
    ∃ ks : List (Nat × Nat),
      canonKeys (combinations2 (orderItemIds o)) = some ks ∧
      update_pairs_from_order s o =
        some { s with pairs := updateConfidence s.orders (upsertAll s.pairs ks) } ∧
      ks.length = ns.length * (ns.length - 1) / 2 ∧
      (∀ a b : Nat, a ∈ ns → b ∈ ns → a < b →
        findPair (upsertAll s.pairs ks) a b =
          some (match findPair s.pairs a b with
                | some p => { p with times_together := p.times_together + 1 }
                | none => newPair a b)) ∧
      (∀ a b : Nat, ¬(a ∈ ns ∧ b ∈ ns ∧ a < b) →
        findPair (upsertAll s.pairs ks) a b = findPair s.pairs a b) := by
  have hck := canonKeys_of_ids hids
  refine ⟨(combinations2 ns).map canonN, hck, ?_, ?_, ?_, ?_⟩
  · unfold update_pairs_from_order
    have hlen : ¬((orderItemIds o).length < 2) := by
      rw [hids, List.length_map]
      omega
    rw [if_neg (fun h => h hst), if_neg hlen, hck]
  · rw [List.length_map]
    have := length_combinations2 ns
    omega
  · intro a b ha hb hab
    rw [findPair_upsertAll _ s.pairs (nodup_map_canonN hnd) a b,
      if_pos ((mem_map_canonN_iff hnd).mpr ⟨ha, hb, hab⟩)]
  · intro a b hnab
    rw [findPair_upsertAll _ s.pairs (nodup_map_canonN hnd) a b,
      if_neg (fun hc => hnab ((mem_map_canonN_iff hnd).mp hc))]

/-- Witness for C1 at a concrete completed two-item order. -/
theorem C1_pair_upserts_witness :
    ∃ ks : List (Nat × Nat),
      canonKeys (combinations2 (orderItemIds ordW)) = some ks ∧
      update_pairs_from_order stRec ordW =
        some { stRec with
               pairs := updateConfidence stRec.orders (upsertAll stRec.pairs ks) } ∧
      ks.length = [1, 2].length * ([1, 2].length - 1) / 2 ∧
      (∀ a b : Nat, a ∈ [1, 2] → b ∈ [1, 2] → a < b →
        findPair (upsertAll stRec.pairs ks) a b =
          some (match findPair stRec.pairs a b with
                | some p => { p with times_together := p.times_together + 1 }
                | none => newPair a b)) ∧
      (∀ a b : Nat, ¬(a ∈ [1, 2] ∧ b ∈ [1, 2] ∧ a < b) →
        findPair (upsertAll stRec.pairs ks) a b = findPair stRec.pairs a b) :=
  C1_pair_upserts stRec ordW [1, 2] rfl (by decide) (by decide) (by decide)

/-- C2: `update_pairs_from_order` is a raising-free no-op on any order that is
not COMPLETED (regardless of item count), and on any COMPLETED order whose
lines reference fewer than two distinct menu items (each line referencing an
existing item). -/
theorem C2_noop (s : EngineState) (o : OrderRec) :
    (o.status ≠ OrderStatus.COMPLETED → update_pairs_from_order s o = some s) ∧
    (∀ ns : List Nat, orderItemIds o = ns.map some → ns.Nodup →
      ns.length < 2 → update_pairs_from_order s o = some s) := by
  constructor
  · intro h
    unfold update_pairs_from_order
    rw [if_pos h]
  · intro ns hids _ hlen
    unfold update_pairs_from_order
    by_cases hst : o.status ≠ OrderStatus.COMPLETED
    · rw [if_pos hst]
    · rw [if_neg hst, if_pos (by rw [hids, List.length_map]; exact hlen)]

/-- Witness for C2: a pending two-item order and a completed single-item order
both leave the state untouched. -/
theorem C2_noop_witness :
    update_pairs_from_order stRec ordPending = some stRec ∧
    update_pairs_from_order stRec ordSingle = some stRec :=
  ⟨(C2_noop stRec ordPending).1 (by decide),
   (C2_noop stRec ordSingle).2 [7] (by decide) (by decide) (by decide)⟩

/-- C3: a call of `update_pairs_from_order` that reaches the upsert loop then
recomputes confidence for every pair row of the tenant (`Forall₂` relates all
rows after the upsert step to the final rows): a row whose item_a has a
positive distinct-completed-order count gets confidence = times_together /
count, and a row whose count is zero is left entirely unchanged. -/
theorem C3_confidence_recompute (s : EngineState) (o : OrderRec)
    (ks : List (Nat × Nat))
    (hst : o.status = OrderStatus.COMPLETED)
    (hlen : 2 ≤ (orderItemIds o).length)
    (hck : canonKeys (combinations2 (orderItemIds o)) = some ks) :
    ∃ e', update_pairs_from_order s o = some e' ∧
      List.Forall₂ (fun p q =>
        (0 < itemOrderCount s.orders p.item_a →
          q = { p with confidence :=
            (p.times_together : ℚ) / (itemOrderCount s.orders p.item_a : ℚ) }) ∧
        (itemOrderCount s.orders p.item_a = 0 → q = p))
        (upsertAll s.pairs ks) e'.pairs := by
  refine ⟨{ s with pairs := updateConfidence s.orders (upsertAll s.pairs ks) },
    ?_, ?_⟩
  · unfold update_pairs_from_order
    rw [if_neg (fun h => h hst), if_neg (Nat.not_lt.mpr hlen), hck]
  · show List.Forall₂ _ (upsertAll s.pairs ks)
      (updateConfidence s.orders (upsertAll s.pairs ks))
    unfold updateConfidence
    rw [List.forall₂_map_right_iff, List.forall₂_same]
    intro p _
    constructor
    · intro hpos
      rw [if_pos hpos]
    · intro hzero
      rw [if_neg (by omega)]

/-- Witness for C3 at the concrete completed two-item order. -/
theorem C3_confidence_recompute_witness :
    ∃ e', update_pairs_from_order stW ordW = some e' ∧
      List.Forall₂ (fun p q =>
        (0 < itemOrderCount stW.orders p.item_a →
          q = { p with confidence :=
            (p.times_together : ℚ) / (itemOrderCount stW.orders p.item_a : ℚ) }) ∧
        (itemOrderCount stW.orders p.item_a = 0 → q = p))
        (upsertAll stW.pairs [(1, 2)]) e'.pairs :=
  C3_confidence_recompute stW ordW [(1, 2)] rfl (by decide) (by decide)

/-- C4: `get_recommendations` never returns a recommendation whose underlying
pair has confidence below 0.15 or times_together below 2, and never returns
an item whose availability flag is false; each returned record carries a
stored pair of the tenant and resolves the item opposite the query item. -/
theorem C4_threshold_filtering (s : EngineState) (avail : Nat → Bool)
    (x limit : Nat) (r : RecOut)
    (hr : r ∈ get_recommendations s avail x limit) :
    r.pair ∈ s.pairs ∧ (0.15 : ℚ) ≤ r.pair.confidence ∧
      2 ≤ r.pair.times_together ∧ r.item = otherItem x r.pair ∧
      avail r.item = true := by
  rcases mem_get_recommendations hr with ⟨p, rfl, hps, hq, ha⟩
  rcases qualifies_spec hq with ⟨_, hconf, htimes⟩
  rw [mkRecOut_pair, mkRecOut_item]
  exact ⟨hps, hconf, htimes, rfl, ha⟩

/-- Evaluation helper: the single qualifying pair of `stRec` is returned. -/
theorem eval_get_recommendations_stRec :
    get_recommendations stRec (fun _ => true) 1 3 = [mkRecOut 1 pairW] := by
  have h1 : stRec.pairs.filter (qualifies 1) = [pairW] := by
    norm_num [stRec, pairW, qualifies, List.filter]
  unfold get_recommendations
  rw [h1, List.mergeSort_singleton]
  norm_num [List.take, List.filter]

/-- Witness for C4 on a concrete store whose retrieval is non-empty. -/
theorem C4_threshold_filtering_witness :
    (mkRecOut 1 pairW).pair ∈ stRec.pairs ∧
      (0.15 : ℚ) ≤ (mkRecOut 1 pairW).pair.confidence ∧
      2 ≤ (mkRecOut 1 pairW).pair.times_together ∧
      (mkRecOut 1 pairW).item = otherItem 1 (mkRecOut 1 pairW).pair ∧
      (fun _ : Nat => true) (mkRecOut 1 pairW).item = true :=
  C4_threshold_filtering stRec (fun _ => true) 1 3 (mkRecOut 1 pairW)
    (by rw [eval_get_recommendations_stRec]; exact List.mem_singleton.mpr rfl)

/-- Evaluation helper: both rows of `stNB` qualify for item 1 and are already
in descending order. -/
theorem eval_filter_stNB : stNB.pairs.filter (qualifies 1) = [pairNB1, pairNB2] := by
  norm_num [stNB, pairNB1, pairNB2, qualifies, List.filter]

theorem eval_sort_stNB :
    [pairNB1, pairNB2].mergeSort recLE = [pairNB1, pairNB2] := by
  apply List.mergeSort_of_sorted
  refine List.Pairwise.cons ?_
    (List.Pairwise.cons (fun b hb => (by cases hb)) List.Pairwise.nil)
  intro b hb
  rw [List.mem_singleton] at hb
  subst hb
  rw [recLE_iff]
  norm_num [pairNB1, pairNB2]

/-- Evaluation helper: with limit 1, the top row recommends the unavailable
item 2 and is dropped, and nothing is backfilled. -/
theorem eval_get_recommendations_stNB :
    get_recommendations stNB availNB 1 1 = [] := by
  unfold get_recommendations
  rw [eval_filter_stNB, eval_sort_stNB]
  norm_num [List.take, List.filter, availNB, otherItem, pairNB1]

/-- C5: the returned list is sorted non-increasingly in lexicographic
(confidence, times_together) order of the underlying pairs and never exceeds
`limit` entries; and it can hold fewer than `limit` even when further
qualifying available pairs exist, because availability filtering runs on the
already-truncated top-limit rows without backfilling (shown concretely on
`stNB`). -/
theorem C5_ranking_truncation (s : EngineState) (avail : Nat → Bool)
    (x limit : Nat) :
    (get_recommendations s avail x limit).length ≤ limit ∧
    (get_recommendations s avail x limit).Pairwise (fun r1 r2 =>
      r2.pair.confidence < r1.pair.confidence ∨
        (r1.pair.confidence = r2.pair.confidence ∧
          r2.pair.times_together ≤ r1.pair.times_together)) ∧
    (get_recommendations stNB availNB 1 1 = [] ∧
      pairNB2 ∈ stNB.pairs ∧ qualifies 1 pairNB2 = true ∧
      availNB (otherItem 1 pairNB2) = true) := by
  refine ⟨?_, ?_, eval_get_recommendations_stNB, ?_, ?_, ?_⟩
  · unfold get_recommendations
    rw [List.length_map]
    exact le_trans (List.length_filter_le _ _) (List.length_take_le ..)
  · unfold get_recommendations
    rw [List.pairwise_map]
    have hsorted : (((s.pairs.filter (qualifies x)).mergeSort recLE)).Pairwise
        (fun a b => recLE a b = true) :=
      List.sorted_mergeSort recLE_trans recLE_total _
    have htake := List.Pairwise.sublist
      (List.take_sublist limit ((s.pairs.filter (qualifies x)).mergeSort recLE))
      hsorted
    have hfilter := List.Pairwise.sublist
      (List.filter_sublist (p := fun p => avail (otherItem x p))
        (((s.pairs.filter (qualifies x)).mergeSort recLE).take limit))
      htake
    refine hfilter.imp ?_
    intro a b h
    rw [recLE_iff] at h
    exact h
  · simp [stNB]
  · norm_num [qualifies, pairNB2]
  · norm_num [availNB, otherItem, pairNB2]

/-- Witness for C5 at a concrete store and limit. -/
theorem C5_ranking_truncation_witness :
    (get_recommendations stRec (fun _ => true) 1 3).length ≤ 3 ∧
    (get_recommendations stRec (fun _ => true) 1 3).Pairwise (fun r1 r2 =>
      r2.pair.confidence < r1.pair.confidence ∨
        (r1.pair.confidence = r2.pair.confidence ∧
          r2.pair.times_together ≤ r1.pair.times_together)) ∧
    (get_recommendations stNB availNB 1 1 = [] ∧
      pairNB2 ∈ stNB.pairs ∧ qualifies 1 pairNB2 = true ∧
      availNB (otherItem 1 pairNB2) = true) :=
  C5_ranking_truncation stRec (fun _ => true) 1 3

/-- C6: in every reachable state the pair store holds at most one row per
unordered item pair, and every row is canonical: item_a < item_b (so no
mirrored duplicates exist). -/
theorem C6_pair_symmetry (σ : SysState) (h : Reachable σ) :
    (∀ p ∈ σ.eng.pairs, p.item_a < p.item_b) ∧
    (∀ p ∈ σ.eng.pairs, ∀ q ∈ σ.eng.pairs,
      ((p.item_a = q.item_a ∧ p.item_b = q.item_b) ∨
        (p.item_a = q.item_b ∧ p.item_b = q.item_a)) → p = q) := by
  have hinv := reachable_inv h
  refine ⟨hinv.canonical, ?_⟩
  intro p hp q hq hk
  rcases hk with ⟨h1, h2⟩ | ⟨h1, h2⟩
  · refine List.inj_on_of_nodup_map hinv.keysNodup hp hq ?_
    rw [Prod.ext_iff]
    exact ⟨h1, h2⟩
  · have hcp := hinv.canonical p hp
    have hcq := hinv.canonical q hq
    exfalso
    omega

/-- Witness for C6 at the concrete reachable state `sysW2`. -/
theorem C6_pair_symmetry_witness :
    (∀ p ∈ sysW2.eng.pairs, p.item_a < p.item_b) ∧
    (∀ p ∈ sysW2.eng.pairs, ∀ q ∈ sysW2.eng.pairs,
      ((p.item_a = q.item_a ∧ p.item_b = q.item_b) ∨
        (p.item_a = q.item_b ∧ p.item_b = q.item_a)) → p = q) :=
  C6_pair_symmetry sysW2 reachable_sysW2

/-- C7: in every reachable state every pair row satisfies
0 ≤ confidence ≤ 1, and times_together never exceeds the distinct
completed-order count of item_a. -/
theorem C7_confidence_bound (σ : SysState) (h : Reachable σ) :
    ∀ p ∈ σ.eng.pairs, 0 ≤ p.confidence ∧ p.confidence ≤ 1 ∧
      p.times_together ≤ itemOrderCount σ.eng.orders p.item_a := by
  have hinv := reachable_inv h
  intro p hp
  rcases hinv.confBound p hp with ⟨h0, h1⟩
  refine ⟨h0, h1, ?_⟩
  exact le_trans (hinv.timesBound p hp)
    (length_procPred_le_itemOrderCount σ.eng.orders σ.processed p.item_a p.item_b)

/-- Witness for C7 at the concrete reachable state `sysW2` and its single
pair row. -/
theorem C7_confidence_bound_witness :
    0 ≤ (⟨1, 2, 1, 1, 0, 0, 0⟩ : Pair).confidence ∧
    (⟨1, 2, 1, 1, 0, 0, 0⟩ : Pair).confidence ≤ 1 ∧
    (⟨1, 2, 1, 1, 0, 0, 0⟩ : Pair).times_together
      ≤ itemOrderCount sysW2.eng.orders (⟨1, 2, 1, 1, 0, 0, 0⟩ : Pair).item_a :=
  C7_confidence_bound sysW2 reachable_sysW2 ⟨1, 2, 1, 1, 0, 0, 0⟩
    (List.mem_singleton.mpr rfl)

/-- C8: `track_conversion` without an explicit revenue derives it from the
order's line for the item (quantity × price, 0 when no line exists — see
`lineRevenue`), appends exactly one CONVERSION event carrying that revenue
and linked to the order, and bumps times_converted by 1 and
revenue_generated by that revenue on every pair row containing the item
(both sides), leaving every other row untouched. -/
theorem C8_conversion_attribution (s : EngineState) (i : Nat) (o : OrderRec) :
    ∃ e', track_conversion s (some i) o none = some e' ∧
      e'.events = s.events ++ [conversionEvent i o.oid (lineRevenue o i)] ∧
      e'.orders = s.orders ∧
      (∀ l, o.lines.find? (fun l => l.menu_item_id == some i) = some l →
        lineRevenue o i = (l.quantity : ℚ) * l.price_at_order) ∧
      (o.lines.find? (fun l => l.menu_item_id == some i) = none →
        lineRevenue o i = 0) ∧
      List.Forall₂ (fun p q =>
        ((p.item_a = i ∨ p.item_b = i) →
          q = { p with times_converted := p.times_converted + 1,
                       revenue_generated := p.revenue_generated + lineRevenue o i }) ∧
        (¬(p.item_a = i ∨ p.item_b = i) → q = p)) s.pairs e'.pairs := by
  refine ⟨_, rfl, rfl, rfl, ?_, ?_, ?_⟩
  · intro l hl
    unfold lineRevenue
    rw [hl]
  · intro hl
    unfold lineRevenue
    rw [hl]
  · show List.Forall₂ _ s.pairs (s.pairs.map _)
    rw [List.forall₂_map_right_iff, List.forall₂_same]
    intro p _
    constructor
    · intro hin
      rw [if_pos (by
        rw [Bool.or_eq_true, beq_iff_eq, beq_iff_eq]
        exact hin)]
    · intro hout
      rw [if_neg (by
        rw [Bool.or_eq_true, beq_iff_eq, beq_iff_eq]
        exact hout)]

/-- Witness for C8 at a concrete store, item and order. -/
theorem C8_conversion_attribution_witness :
    ∃ e', track_conversion stRec (some 1) ordW none = some e' ∧
      e'.events = stRec.events
        ++ [conversionEvent 1 ordW.oid (lineRevenue ordW 1)] ∧
      e'.orders = stRec.orders ∧
      (∀ l, ordW.lines.find? (fun l => l.menu_item_id == some 1) = some l →
        lineRevenue ordW 1 = (l.quantity : ℚ) * l.price_at_order) ∧
      (ordW.lines.find? (fun l => l.menu_item_id == some 1) = none →
        lineRevenue ordW 1 = 0) ∧
      List.Forall₂ (fun p q =>
        ((p.item_a = 1 ∨ p.item_b = 1) →
          q = { p with times_converted := p.times_converted + 1,
                       revenue_generated :=
                         p.revenue_generated + lineRevenue ordW 1 }) ∧
        (¬(p.item_a = 1 ∨ p.item_b = 1) → q = p)) stRec.pairs e'.pairs :=
  C8_conversion_attribution stRec 1 ordW

/-- C9 counterexample: the claim says a `track_conversion` call with no
recommended item is a defensive no-op that raises no exception, but the code
has no such guard: with `recommended_item = None` the event insert is
attempted and fails (the call raises, modelled as `none`), so the call does
not return normally. -/
theorem C9_counterexample :
    track_conversion EngineState.empty none ordW none = none := rfl

/-- C9 (amended): `track_impression` with no recommended item is a defensive
no-op — state unchanged, no event, no exception; `track_conversion` has no
such guard and with no recommended item it raises out of the event insert
(no event persisted, no pair statistics modified, but the exception reaches
the caller). -/
theorem C9_missing_item_guard (s : EngineState) (src : Option Nat)
    (o : OrderRec) (rev : Option ℚ) :
    track_impression s src none = s ∧ track_conversion s none o rev = none :=
  ⟨rfl, rfl⟩

/-- Witness for the amended C9 at concrete inputs. -/
theorem C9_missing_item_guard_witness :
    track_impression stRec none none = stRec ∧
    track_conversion stRec none ordW none = none :=
  C9_missing_item_guard stRec none ordW none

/-- C10: `update_pairs_from_order` collects the raw per-line menu_item_id
values without dropping nulls, its guard counts lines rather than non-null
distinct ids, and for a COMPLETED order with at least two lines one of which
lost its menu item the null id reaches the canonical-ordering comparison and
the call raises (`none`): the enumeration is well-defined only when every
line still references an existing item. -/
theorem C10_null_line_hazard (s : EngineState) (o : OrderRec)
    (hst : o.status = OrderStatus.COMPLETED)
    (hlen : 2 ≤ o.lines.length)
    (hnull : ∃ l ∈ o.lines, l.menu_item_id = none) :
    (orderItemIds o).length = o.lines.length ∧
    none ∈ orderItemIds o ∧
    update_pairs_from_order s o = none := by
  have hlen' : 2 ≤ (orderItemIds o).length := by
    rw [orderItemIds, List.length_map]
    exact hlen
  rcases hnull with ⟨l, hl, hln⟩
  have hmemnone : none ∈ orderItemIds o := by
    rw [orderItemIds]
    exact hln ▸ List.mem_map_of_mem _ hl
  refine ⟨by rw [orderItemIds, List.length_map], hmemnone, ?_⟩
  unfold update_pairs_from_order
  rw [if_neg (fun h => h hst), if_neg (Nat.not_lt.mpr hlen')]
  rcases hck : canonKeys (combinations2 (orderItemIds o)) with _ | ks
  · rfl
  · exfalso
    rcases ids_some_of_canonKeys hlen' hck with ⟨ns, hns⟩
    rw [hns] at hmemnone
    rcases List.mem_map.mp hmemnone with ⟨n, _, hn⟩
    cases hn

/-- Witness for C10 at a concrete completed order with a nulled line. -/
theorem C10_null_line_hazard_witness :
    (orderItemIds ordNull).length = ordNull.lines.length ∧
    none ∈ orderItemIds ordNull ∧
    update_pairs_from_order EngineState.empty ordNull = none :=
  C10_null_line_hazard EngineState.empty ordNull rfl (by decide) (by decide)

end HotelQR
